import Mathlib

set_option maxHeartbeats 1000000

/-
Verification of the pylogic proof kernel and backward prover.

The repository ships only notebooks (tutorials, tests with recorded outputs),
documentation and journals; the Python implementation itself
(pylogic/proposition/proposition.py, pylogic/proposition/proof_search.py,
pylogic/assumptions_context.py) is not part of the source tree.  The
definitions below therefore model those missing modules from the
specification (spec.md sections 3, 4.1, 4.2, 4.4 and 8), cross-checked
against the recorded outputs of src/test_proof_search.ipynb and the
documentation notebooks, which are in the source tree.
-/

/-- Modelled from the spec: the proposition AST of the missing
`pylogic.proposition` module (spec section 2 and 3).  `And`, `Or` and `ExOr`
are n-ary as in the source notebooks (`P.and_(Q, R)` displays as
`And(P, Q, R)`), `bot` is the `Contradiction` proposition, and
`Forall` binds exactly one variable. -/
inductive PropF where
  | atom (n : String)
  | bot
  | not_ (p : PropF)
  | and_ (ps : List PropF)
  | or_ (ps : List PropF)
  | exOr (ps : List PropF)
  | implies (a c : PropF)
  | forall_ (v : String) (p : PropF)

mutual

/-- Structural equality on propositions (spec section 3: same constructor and
recursively equal children). -/
def beq : PropF → PropF → Bool
  | .atom a, .atom b => a == b
  | .bot, .bot => true
  | .not_ p, .not_ q => beq p q
  | .and_ ps, .and_ qs => beqList ps qs
  | .or_ ps, .or_ qs => beqList ps qs
  | .exOr ps, .exOr qs => beqList ps qs
  | .implies a c, .implies b d => beq a b && beq c d
  | .forall_ v p, .forall_ w q => v == w && beq p q
  | _, _ => false

def beqList : List PropF → List PropF → Bool
  | [], [] => true
  | p :: ps, q :: qs => beq p q && beqList ps qs
  | _, _ => false

end

mutual

/-- Size of a proposition, used for the prover's default search depth
(spec section 4.4: "default: proportional to the size of the premises"). -/
def psize : PropF → Nat
  | .atom _ => 1
  | .bot => 1
  | .not_ p => 1 + psize p
  | .and_ ps => 1 + psizeList ps
  | .or_ ps => 1 + psizeList ps
  | .exOr ps => 1 + psizeList ps
  | .implies a c => 1 + psize a + psize c
  | .forall_ _ p => 1 + psize p

def psizeList : List PropF → Nat
  | [] => 0
  | p :: ps => psize p + psizeList ps

end

mutual

/-- A proposition together with all of its nested conjuncts.  Conjuncts of a
proven conjunction are proven (the `is_one_of` kernel rule), so the prover's
premise set is closed under this expansion. -/
def conjuncts : PropF → List PropF
  | .and_ ps => .and_ ps :: conjunctsList ps
  | p => [p]

def conjunctsList : List PropF → List PropF
  | [] => []
  | p :: ps => conjuncts p ++ conjunctsList ps

end

/-- Modelled from the spec: a pylogic `Proposition` object (spec section 3):
a logical form, the `proven` flag minted by kernel rules, and the
`deduced_from` provenance record (rule name and input propositions), which is
`None` for assumptions and for a few rules (cf. the recorded output of
src/test_proof_search.ipynb where a proven `~~P` prints `deduced_from = None`). -/
inductive Pp where
  | mk (form : PropF) (proven : Bool) (deduced_from : Option (String × List Pp))

def Pp.form : Pp → PropF
  | .mk f _ _ => f

def Pp.proven : Pp → Bool
  | .mk _ b _ => b

def Pp.deduced_from : Pp → Option (String × List Pp)
  | .mk _ _ d => d

/-- An assumed proposition: proven, no provenance record. -/
def mkAssump (f : PropF) : Pp := Pp.mk f true none

/-- Assuming a proposition also makes each of its nested conjuncts available
as a proven premise. -/
def expandPrem (f : PropF) : List Pp := (conjuncts f).map mkAssump

/-- Expand a knowledge base: keep each user premise object and add its nested
conjuncts. -/
def expandKb (kb : List Pp) : List Pp :=
  kb.flatMap (fun p =>
    p :: (match p.form with
          | .and_ ps => (conjunctsList ps).map mkAssump
          | _ => []))

/-- Modelled from the spec: the prover's failure value (spec section 4.4 and 7:
"On exhausting all rules, it fails with `NoRuleApplies(goal)`"; the Python
code raises `ValueError(f"No rule found to prove {goal}")`). -/
inductive PSearchError where
  | noRuleApplies (goal : PropF)

/-- First-success choice on options, with an explicitly thunked second arm. -/
def opOr (a : Option α) (b : Unit → Option α) : Option α :=
  match a with
  | some x => some x
  | none => b ()

/-- Rule 1 of spec section 4.4: the goal appears proven in the premise set. -/
def ruleIdentity (kb : List Pp) (goal : PropF) : Option Pp :=
  kb.find? (fun q => q.proven && beq q.form goal)

mutual

/-- Modelled from the spec: the backward prover `_BackwardProver._prove` of the
missing module pylogic/proposition/proof_search.py (spec section 4.4), a
goal-directed depth-first search.  Rules, in order: identity; deriving the
goal by `ex_falso` from a contradiction among the premises (for the goal
`Contradiction` itself, the `contradicts` primitive on a negated premise);
conjunction introduction; disjunction introduction; modus ponens on a
premise implication; case analysis on a premise disjunction (`by_cases`);
implication introduction via an assumption context
(`close_assumptions_context`); double-negation introduction (recorded in the
test notebook with provenance `None`); in classical mode only,
double-negation elimination on a premise and proof by contradiction
(spec: `USE_CLASSICAL_LOGIC` "enables rule 8 ... and double-negation
elimination"); and De Morgan normalization of the goal.  The rule order, the
provenance roots, the goal-side-only De Morgan step and the fact that the
proof-by-contradiction search does not nest further classical steps are fixed
by the recorded outputs of src/test_proof_search.ipynb.  Loop avoidance uses a
visited set of goals, reset whenever a new assumption opens a frame (the
Python pairs each visited goal with a frame depth), and a `no_recurse_on` set
of disjunctive premises already expanded along the branch.  The `fuel`
argument is the maximum search depth; on exhausting it, or the rules, the
prover fails with `noRuleApplies goal`. -/
def prove (cl : Bool) (fuel : Nat) (kb : List Pp) (vis noRec : List PropF)
    (goal : PropF) : Except PSearchError Pp :=
  match fuel with
  | 0 => .error (.noRuleApplies goal)
  | fuel' + 1 =>
    if vis.any (fun v => beq v goal) then .error (.noRuleApplies goal)
    else
      match proveStep cl fuel' kb (goal :: vis) noRec goal with
      | some p => .ok p
      | none => .error (.noRuleApplies goal)

/-- One pass over the prover's rule table (see `prove`); `vis` already
contains the current goal. -/
def proveStep (cl : Bool) (fuel : Nat) (kb : List Pp) (vis noRec : List PropF)
    (goal : PropF) : Option Pp :=
  match fuel with
  | 0 => none
  | fuel' + 1 =>
    opOr (ruleIdentity kb goal) fun _ =>
    opOr (ruleExFalso cl fuel' kb vis noRec goal) fun _ =>
    opOr (ruleConj cl fuel' kb vis noRec goal) fun _ =>
    opOr (ruleDisj cl fuel' kb vis noRec goal) fun _ =>
    opOr (tryMP cl fuel' kb vis noRec kb goal) fun _ =>
    opOr (tryCases cl fuel' kb vis noRec kb goal) fun _ =>
    opOr (ruleImplIntro cl fuel' kb vis noRec goal) fun _ =>
    opOr (ruleDNIntro cl fuel' kb vis noRec goal) fun _ =>
    opOr (ruleDNEPremise cl kb goal) fun _ =>
    opOr (ruleContraClassical cl fuel' kb vis noRec goal) fun _ =>
    ruleDeMorgan cl fuel' kb vis noRec goal

/-- For any goal other than `Contradiction`: derive a contradiction from the
premises alone and conclude the goal by the `ex_falso` kernel rule (seen at
the provenance root of scenario 4 in the recorded test output); for the goal
`Contradiction`, run the contradiction search itself. -/
def ruleExFalso (cl : Bool) (fuel : Nat) (kb : List Pp) (vis noRec : List PropF) :
    PropF → Option Pp
  | .bot =>
      match fuel with
      | 0 => none
      | fuel' + 1 => tryContradicts cl fuel' kb vis noRec kb
  | goal =>
      match fuel with
      | 0 => none
      | fuel' + 1 =>
          (prove cl fuel' kb vis noRec .bot).toOption.map
            (fun c => Pp.mk goal true (some ("ex_falso", [c])))

/-- Rule 2 of spec section 4.4: conjunction introduction. -/
def ruleConj (cl : Bool) (fuel : Nat) (kb : List Pp) (vis noRec : List PropF) :
    PropF → Option Pp
  | .and_ ps =>
      match fuel with
      | 0 => none
      | fuel' + 1 =>
          (proveAll cl fuel' kb vis noRec ps).map
            (fun pfs => Pp.mk (.and_ ps) true (some ("and_", pfs)))
  | _ => none

/-- Rule 3 of spec section 4.4: disjunction introduction from the first
provable disjunct. -/
def ruleDisj (cl : Bool) (fuel : Nat) (kb : List Pp) (vis noRec : List PropF) :
    PropF → Option Pp
  | .or_ ps =>
      match fuel with
      | 0 => none
      | fuel' + 1 =>
          (proveFirst cl fuel' kb vis noRec ps).map
            (fun d => Pp.mk (.or_ ps) true (some ("one_proven", [d])))
  | _ => none

/-- Rule 4 of spec section 4.4: implication introduction — assume the
antecedent in a fresh frame (visited set reset) and prove the consequent;
closing the frame yields the recorded `close_assumptions_context`
provenance. -/
def ruleImplIntro (cl : Bool) (fuel : Nat) (kb : List Pp) (vis noRec : List PropF) :
    PropF → Option Pp
  | .implies a c =>
      match fuel with
      | 0 => none
      | fuel' + 1 =>
          (prove cl fuel' (expandPrem a ++ kb) [] noRec c).toOption.map
            (fun cp => Pp.mk (.implies a c) true
                         (some ("close_assumptions_context", [cp])))
  | _ => none

/-- Double-negation introduction: prove `x` for the goal `¬¬x`; the recorded
test output shows the resulting proposition carries no provenance record. -/
def ruleDNIntro (cl : Bool) (fuel : Nat) (kb : List Pp) (vis noRec : List PropF) :
    PropF → Option Pp
  | .not_ (.not_ x) =>
      match fuel with
      | 0 => none
      | fuel' + 1 =>
          (prove cl fuel' kb vis noRec x).toOption.map
            (fun _ => Pp.mk (.not_ (.not_ x)) true none)
  | _ => none

/-- Classical mode only: double-negation elimination on a premise `¬¬goal`
(spec section 6: `USE_CLASSICAL_LOGIC` enables double-negation
elimination). -/
def ruleDNEPremise (cl : Bool) (kb : List Pp) (goal : PropF) : Option Pp :=
  if cl then
    (kb.find? (fun q => q.proven &&
       (match q.form with
        | .not_ (.not_ x) => beq x goal
        | _ => false))).map (fun _ => Pp.mk goal true none)
  else none

/-- Rule 8 of spec section 4.4, classical mode only: assume the negation of
the goal in a fresh frame and search for `Contradiction`; the inner search
does not nest further classical steps (the recorded failure of the De Morgan
direction in the test notebook fixes this). -/
def ruleContraClassical (cl : Bool) (fuel : Nat) (kb : List Pp)
    (vis noRec : List PropF) (goal : PropF) : Option Pp :=
  if cl then
    match fuel with
    | 0 => none
    | fuel' + 1 =>
        (prove false fuel' (expandPrem (.not_ goal) ++ kb) [] noRec
           .bot).toOption.map
          (fun c => Pp.mk goal true (some ("ex_falso", [c])))
  else none

/-- Rule 9 of spec section 4.4: De Morgan normalization of a negated junction
goal (the recorded outputs show the transformation is applied to goals, not
to premises). -/
def ruleDeMorgan (cl : Bool) (fuel : Nat) (kb : List Pp) (vis noRec : List PropF) :
    PropF → Option Pp
  | .not_ (.and_ ps) =>
      match fuel with
      | 0 => none
      | fuel' + 1 =>
          (prove cl fuel' kb vis noRec (.or_ (ps.map PropF.not_))).toOption.map
            (fun d => Pp.mk (.not_ (.and_ ps)) true (some ("de_morgan", [d])))
  | .not_ (.or_ ps) =>
      match fuel with
      | 0 => none
      | fuel' + 1 =>
          (prove cl fuel' kb vis noRec (.and_ (ps.map PropF.not_))).toOption.map
            (fun d => Pp.mk (.not_ (.or_ ps)) true (some ("de_morgan", [d])))
  | _ => none

/-- For the goal `Contradiction`: find a premise `¬x` (or a premise `a → ¬x`
whose antecedent is provable, yielding `¬x` by modus ponens), prove `x`, and
apply the `contradicts` kernel primitive. -/
def tryContradicts (cl : Bool) (fuel : Nat) (kb : List Pp) (vis noRec : List PropF)
    (prems : List Pp) : Option Pp :=
  match fuel with
  | 0 => none
  | fuel' + 1 =>
    match prems with
    | [] => none
    | q :: rest =>
      opOr (if q.proven then
              match q.form with
              | .not_ x => (prove cl fuel' kb vis noRec x).toOption.map
                             (fun xp => Pp.mk .bot true
                                          (some ("contradicts", [xp, q])))
              | .implies a (.not_ x) =>
                  (prove cl fuel' kb vis noRec a).toOption.bind (fun ap =>
                    (prove cl fuel' kb vis noRec x).toOption.map (fun xp =>
                      Pp.mk .bot true
                        (some ("contradicts",
                               [xp, Pp.mk (.not_ x) true
                                      (some ("modus_ponens", [ap, q]))]))))
              | _ => none
            else none) fun _ =>
        tryContradicts cl fuel' kb vis noRec rest

/-- Prove every goal in the list (conjunction introduction). -/
def proveAll (cl : Bool) (fuel : Nat) (kb : List Pp) (vis noRec : List PropF)
    (goals : List PropF) : Option (List Pp) :=
  match fuel with
  | 0 => none
  | fuel' + 1 =>
    match goals with
    | [] => some []
    | g :: gs =>
      match prove cl fuel' kb vis noRec g with
      | .ok p => (proveAll cl fuel' kb vis noRec gs).map (fun ps => p :: ps)
      | .error _ => none

/-- Prove the first provable disjunct (disjunction introduction). -/
def proveFirst (cl : Bool) (fuel : Nat) (kb : List Pp) (vis noRec : List PropF)
    (ds : List PropF) : Option Pp :=
  match fuel with
  | 0 => none
  | fuel' + 1 =>
    match ds with
    | [] => none
    | d :: rest =>
      match prove cl fuel' kb vis noRec d with
      | .ok p => some p
      | .error _ => proveFirst cl fuel' kb vis noRec rest

/-- Rule 6 of spec section 4.4: for a premise `A → G` whose consequent is the
goal — or has the goal among its nested conjuncts (`is_one_of` after the
modus ponens) — set `A` as the subgoal. -/
def tryMP (cl : Bool) (fuel : Nat) (kb : List Pp) (vis noRec : List PropF)
    (prems : List Pp) (goal : PropF) : Option Pp :=
  match fuel with
  | 0 => none
  | fuel' + 1 =>
    match prems with
    | [] => none
    | q :: rest =>
      opOr (if q.proven then
              match q.form with
              | .implies a c =>
                  if (conjuncts c).any (fun x => beq x goal) then
                    (prove cl fuel' kb vis noRec a).toOption.map
                      (fun ap => Pp.mk goal true
                                   (some ("modus_ponens", [ap, q])))
                  else none
              | _ => none
            else none) fun _ =>
        tryMP cl fuel' kb vis noRec rest goal

/-- Rule 7 of spec section 4.4: case analysis on a premise disjunction not yet
expanded along this branch. -/
def tryCases (cl : Bool) (fuel : Nat) (kb : List Pp) (vis noRec : List PropF)
    (prems : List Pp) (goal : PropF) : Option Pp :=
  match fuel with
  | 0 => none
  | fuel' + 1 =>
    match prems with
    | [] => none
    | q :: rest =>
      opOr (if q.proven && !(noRec.any (fun f => beq f q.form)) then
              match q.form with
              | .or_ ds =>
                  (proveBranches cl fuel' kb (q.form :: noRec) ds goal).map
                    (fun _ => Pp.mk goal true (some ("by_cases", [q])))
              | _ => none
            else none) fun _ =>
        tryCases cl fuel' kb vis noRec rest goal

/-- Prove the goal under each case assumption in turn; every case opens a
fresh frame (visited set reset) with the disjunct assumed. -/
def proveBranches (cl : Bool) (fuel : Nat) (kb : List Pp) (noRec : List PropF)
    (ds : List PropF) (goal : PropF) : Option (List Pp) :=
  match fuel with
  | 0 => none
  | fuel' + 1 =>
    match ds with
    | [] => some []
    | d :: rest =>
      match prove cl fuel' (expandPrem d ++ kb) [] noRec goal with
      | .ok p => (proveBranches cl fuel' kb noRec rest goal).map (fun ps => p :: ps)
      | .error _ => none

end

/-- Default maximum search depth, proportional to the size of the premises
and the goal (spec section 4.4). -/
def defaultFuel (kb : List Pp) (goal : PropF) : Nat :=
  8 * ((kb.map (fun p => psize p.form)).sum + psize goal) + 64

/-- Modelled from the spec: the prover entry point
`proof_search(kb, target)` of the missing pylogic/proposition/proof_search.py
(spec section 6: `prove(premises, goal) → Proposition | NoRuleApplies`). -/
def proof_search (cl : Bool) (kb : List Pp) (target : PropF) :
    Except PSearchError Pp :=
  prove cl (defaultFuel kb target) (expandKb kb) [] [] target

/-- Root rule name of a proof's provenance record. -/
def rootRule (p : Pp) : Option String :=
  p.deduced_from.map (fun pr => pr.1)

/-- Forms of the input propositions of a proof's root provenance record. -/
def rootInputForms (p : Pp) : List PropF :=
  match p.deduced_from with
  | some (_, ins) => ins.map Pp.form
  | none => []

/-- Whether a proof's provenance is rooted in `by_cases` with an `ex_falso`
application at the root of every case branch. -/
def byCasesWithExFalsoBranches (p : Pp) : Bool :=
  match p.deduced_from with
  | some (n, ins) =>
      n == "by_cases" &&
      ins.all (fun q =>
        match q.deduced_from with
        | some (m, _) => m == "ex_falso"
        | none => false)
  | none => false

/-- Extract the error of a failed search (arbitrary default on success). -/
def errOf (r : Except PSearchError Pp) : PSearchError :=
  match r with
  | .error e => e
  | .ok p => .noRuleApplies p.form

/-- Modelled from the spec: the error taxonomy of kernel rules (spec
section 7): `RuleNotApplicable` for a failed structural precondition and
`UnprovenInput` for an input whose `proven` flag is false. -/
inductive RuleError where
  | ruleNotApplicable
  | unprovenInput

/-- Modelled from the spec: the kernel rule `Proposition.modus_ponens` of the
missing pylogic/proposition/proposition.py.  Per the help text recorded in
src/docs/Ipynb/Inference.ipynb, `other` must be a proven implication whose
structure is `self -> OtherProposition`; the rule checks its inputs' proven
flags (spec section 4.2) and on success returns the consequent, proven, with
a `modus_ponens` provenance record. -/
def modus_ponens (self other : Pp) : Except RuleError Pp :=
  if self.proven && other.proven then
    match other.form with
    | .implies a c =>
        if beq a self.form then
          .ok (Pp.mk c true (some ("modus_ponens", [self, other])))
        else .error .ruleNotApplicable
    | _ => .error .ruleNotApplicable
  else .error .unprovenInput

/-- Modelled from the spec: one frame of the assumption-context stack (spec
section 4.1): its local assumptions and declared variables in order, the
conclusions recorded by `conclude`, and the propositions currently proven
inside it (assumptions and rule-minted results). -/
structure Frame where
  assumptions : List PropF
  vars : List String
  concls : List PropF
  provenHere : List PropF

/-- Modelled from the spec: the state of the assumption-context stack: the
open frames, innermost first, and the propositions proven at global scope. -/
structure CtxState where
  frames : List Frame
  globalProven : List PropF

/-- Boolean membership via structural equality. -/
def memB (l : List PropF) (x : PropF) : Bool :=
  l.any (fun q => beq q x)

/-- A proposition is proven in a state iff it is proven at global scope or in
some open frame (spec section 3: `proven` holds until the frame carrying its
support is closed). -/
def isProven (s : CtxState) (p : PropF) : Bool :=
  memB s.globalProven p || s.frames.any (fun fr => memB fr.provenHere p)

/-- The operation `open()`: push a fresh frame (spec section 4.1). -/
def openCtx (s : CtxState) : CtxState :=
  ⟨⟨[], [], [], []⟩ :: s.frames, s.globalProven⟩

/-- The operation `declare_variable(name)`: record a fresh local variable, in declaration
order, on the current frame (spec section 4.1). -/
def declareVar (s : CtxState) (v : String) : CtxState :=
  match s.frames with
  | [] => s
  | f :: rest => ⟨{ f with vars := f.vars ++ [v] } :: rest, s.globalProven⟩

/-- The operation `assume(p)`: mark `p` proven as an assumption of the current frame (spec
section 4.1); outside any frame it becomes a global assumption. -/
def assumeProp (s : CtxState) (p : PropF) : CtxState :=
  match s.frames with
  | [] => ⟨[], s.globalProven ++ [p]⟩
  | f :: rest =>
      ⟨{ f with assumptions := f.assumptions ++ [p],
                provenHere := f.provenHere ++ [p] } :: rest, s.globalProven⟩

/-- A checked rule application minting `p` as proven in the current frame
(spec section 3: a rule result is bound to the most enclosing frame of its
supporting assumptions; here, conservatively, the innermost frame). -/
def mint (s : CtxState) (p : PropF) : CtxState :=
  match s.frames with
  | [] => ⟨[], s.globalProven ++ [p]⟩
  | f :: rest => ⟨{ f with provenHere := f.provenHere ++ [p] } :: rest, s.globalProven⟩

/-- The operation `conclude(p)`: record a desired conclusion of the current frame; a no-op
on an unproven proposition (spec section 4.1). -/
def conclude (s : CtxState) (p : PropF) : CtxState :=
  if isProven s p then
    match s.frames with
    | [] => s
    | f :: rest => ⟨{ f with concls := f.concls ++ [p] } :: rest, s.globalProven⟩
  else s

/-- The discharged form of a conclusion `c` of a closing frame: wrap in one
antecedent per live assumption (innermost assumption outermost, spec section
4.1), then in one `Forall` per declared variable, declaration order outermost
first (spec section 8: declared variables appear as outermost binders). -/
def discharge (f : Frame) (c : PropF) : PropF :=
  f.vars.foldr (fun v acc => .forall_ v acc)
    (f.assumptions.foldl (fun acc a => .implies a acc) c)

/-- The operation `close()`: pop the innermost frame, discharge every recorded conclusion,
and mint the results as proven in the enclosing frame (provenance
`close_assumptions_context`); fatal without an open frame (spec section 4.1).
Everything proven only inside the popped frame loses `proven`. -/
def close (s : CtxState) : Option CtxState :=
  match s.frames with
  | [] => none
  | f :: rest =>
    match rest with
    | [] => some ⟨[], s.globalProven ++ f.concls.map (discharge f)⟩
    | g :: rest' =>
        some ⟨{ g with provenHere := g.provenHere ++ f.concls.map (discharge f) }
                :: rest',
              s.globalProven⟩

/-- The maximal chain of outermost `Forall` binders of a proposition. -/
def outerBinders : PropF → List String
  | .forall_ v p => v :: outerBinders p
  | _ => []

mutual

/-- Modelled from the spec: the truth-functional semantics of the
propositional connectives (the source implementation is absent).  Per
src/docs/Ipynb/Relations.ipynb, an `ExOr` is true iff exactly one of its
disjuncts is true and all others are false; quantified propositions have no
truth value in this propositional semantics. -/
def evalP (v : String → Bool) : PropF → Option Bool
  | .atom n => some (v n)
  | .bot => some false
  | .not_ p => (evalP v p).map (fun b => !b)
  | .and_ ps => (evalPList v ps).map (fun bs => bs.all id)
  | .or_ ps => (evalPList v ps).map (fun bs => bs.any id)
  | .exOr ps => (evalPList v ps).map (fun bs => bs.count true == 1)
  | .implies a c =>
      match evalP v a, evalP v c with
      | some x, some y => some (!x || y)
      | _, _ => none
  | .forall_ _ _ => none

def evalPList (v : String → Bool) : List PropF → Option (List Bool)
  | [] => some []
  | p :: ps =>
      match evalP v p, evalPList v ps with
      | some b, some bs => some (b :: bs)
      | _, _ => none

end

def Pa : PropF := .atom "P"

def Qa : PropF := .atom "Q"

def Ra : PropF := .atom "R"

def Sa : PropF := .atom "S"

def Ta : PropF := .atom "T"

/-- Premises of end-to-end scenario 4 (spec section 8, claim C7):
`(P → Q) ∧ (R → S)`, `(Q ∨ S) → T`, `P ∨ R`, `¬T`, all assumed. -/
def kb7 : List Pp :=
  [mkAssump (.and_ [.implies Pa Qa, .implies Ra Sa]),
   mkAssump (.implies (.or_ [Qa, Sa]) Ta),
   mkAssump (.or_ [Pa, Ra]),
   mkAssump (.not_ Ta)]

/-- Goal of end-to-end scenario 4: `¬P ∧ ¬R`. -/
def goal7 : PropF := .and_ [.not_ Pa, .not_ Ra]

/-- Goal of end-to-end scenario 6 (claim C8): `¬P ∨ (¬Q ∧ ¬R ∧ ¬S)`. -/
def goal8 : PropF := .or_ [.not_ Pa, .and_ [.not_ Qa, .not_ Ra, .not_ Sa]]

/-- Premise of end-to-end scenario 6: `¬(P ∧ (Q ∨ R ∨ S))`. -/
def prem8 : PropF := .not_ (.and_ [Pa, .or_ [Qa, Ra, Sa]])

def ppP : Pp := mkAssump Pa

def ppPQR : Pp := mkAssump (.implies Pa (.or_ [Qa, Ra]))

def ppQRS : Pp := mkAssump (.implies (.or_ [Qa, Ra]) (.not_ Sa))

/-- The proposition `Q ∨ R` as produced by the first modus ponens of scenario 1. -/
def ppQR : Pp := Pp.mk (.or_ [Qa, Ra]) true (some ("modus_ponens", [ppP, ppPQR]))

/-- The proposition `¬S` as produced by the second modus ponens of scenario 1. -/
def ppNS : Pp := Pp.mk (.not_ Sa) true (some ("modus_ponens", [ppQR, ppQRS]))

/-- The proof object returned by the prover on the claim C1 witness input
(arbitrary unproven default if the search were to fail). -/
def c1res : Pp :=
  match proof_search true [mkAssump Pa] (.not_ (.not_ Pa)) with
  | .ok p => p
  | .error _ => Pp.mk .bot false none

/-- Concrete closed state for claim C2's witness: a frame that assumed `A`,
minted `P` and concluded `P`. -/
def sC2 : CtxState :=
  conclude (mint (assumeProp (openCtx ⟨[], []⟩) (.atom "A")) (.atom "P")) (.atom "P")

/-- The frame of `sC2`. -/
def fC2 : Frame :=
  ⟨[.atom "A"], [], [.atom "P"], [.atom "A", .atom "P"]⟩

/-- Concrete state for claim C3's witness: a frame that declared the local
variable `x`, minted `P` and concluded it. -/
def sC3 : CtxState :=
  conclude (mint (declareVar (openCtx ⟨[], []⟩) "x") (.atom "P")) (.atom "P")

/-- The frame of `sC3`. -/
def fC3 : Frame :=
  ⟨[], ["x"], [.atom "P"], [.atom "P"]⟩



mutual

/-- Structural equality agrees with propositional equality. -/
theorem pbeq_iff_eq : ∀ (p q : PropF), beq p q = true ↔ p = q
  | .atom a, q => by cases q <;> simp [beq]
  | .bot, q => by cases q <;> simp [beq]
  | .not_ p, q => by
      cases q <;> simp [beq]
      exact pbeq_iff_eq p _
  | .and_ ps, q => by
      cases q <;> simp [beq]
      exact pbeqList_iff_eq ps _
  | .or_ ps, q => by
      cases q <;> simp [beq]
      exact pbeqList_iff_eq ps _
  | .exOr ps, q => by
      cases q <;> simp [beq]
      exact pbeqList_iff_eq ps _
  | .implies a c, q => by
      cases q <;> simp [beq]
      rw [pbeq_iff_eq a _, pbeq_iff_eq c _]
  | .forall_ v p, q => by
      cases q <;> simp [beq]
      intro h
      subst h
      exact pbeq_iff_eq p _

theorem pbeqList_iff_eq : ∀ (ps qs : List PropF), beqList ps qs = true ↔ ps = qs
  | [], qs => by cases qs <;> simp [beqList]
  | p :: ps, qs => by
      cases qs with
      | nil => simp [beqList]
      | cons q qs => simp [beqList, pbeq_iff_eq p q, pbeqList_iff_eq ps qs]

end

theorem opOr_eq_some {α : Type} (a : Option α) (b : Unit → Option α) (x : α) :
    opOr a b = some x ↔ a = some x ∨ (a = none ∧ b () = some x) := by
  cases a <;> simp [opOr]

/-- Rule 1 returns a proven premise structurally equal to the goal. -/
theorem ruleIdentity_sound (kb : List Pp) (goal : PropF) (p : Pp)
    (h : ruleIdentity kb goal = some p) : p.form = goal ∧ p.proven = true := by
  have hp := List.find?_some h
  rw [Bool.and_eq_true] at hp
  exact ⟨(pbeq_iff_eq _ _).mp hp.2, hp.1⟩

/-- The contradiction search only ever returns a proven `Contradiction`. -/
theorem tryContradicts_sound (cl : Bool) :
    ∀ (fuel : Nat) (kb : List Pp) (vis noRec : List PropF) (prems : List Pp)
      (p : Pp), tryContradicts cl fuel kb vis noRec prems = some p →
      p.form = .bot ∧ p.proven = true := by
  intro fuel
  induction fuel with
  | zero => intro kb vis noRec prems p h; simp [tryContradicts] at h
  | succ n ih =>
      intro kb vis noRec prems p h
      match prems with
      | [] => simp [tryContradicts] at h
      | q :: rest =>
          rw [tryContradicts, opOr_eq_some] at h
          rcases h with h | ⟨-, h⟩
          · split at h
            · split at h
              · rw [Option.map_eq_some'] at h
                obtain ⟨a, -, ha⟩ := h
                subst ha
                exact ⟨rfl, rfl⟩
              · rw [Option.bind_eq_some] at h
                obtain ⟨a, -, ha⟩ := h
                rw [Option.map_eq_some'] at ha
                obtain ⟨b, -, hb⟩ := ha
                subst hb
                exact ⟨rfl, rfl⟩
              · simp at h
            · simp at h
          · exact ih kb vis noRec rest p h

/-- The ex-falso rule only ever returns the goal, proven. -/
theorem ruleExFalso_sound (cl : Bool) (fuel : Nat) (kb : List Pp)
    (vis noRec : List PropF) (goal : PropF) (p : Pp)
    (h : ruleExFalso cl fuel kb vis noRec goal = some p) :
    p.form = goal ∧ p.proven = true := by
  cases fuel with
  | zero => cases goal <;> simp [ruleExFalso] at h
  | succ n =>
      cases goal <;> simp only [ruleExFalso, Option.map_eq_some'] at h
      case bot => exact tryContradicts_sound cl n kb vis noRec kb p h
      all_goals
        obtain ⟨a, -, ha⟩ := h
        subst ha
        exact ⟨rfl, rfl⟩

/-- Conjunction introduction only ever returns the goal, proven. -/
theorem ruleConj_sound (cl : Bool) (fuel : Nat) (kb : List Pp)
    (vis noRec : List PropF) (goal : PropF) (p : Pp)
    (h : ruleConj cl fuel kb vis noRec goal = some p) :
    p.form = goal ∧ p.proven = true := by
  cases fuel with
  | zero => cases goal <;> simp [ruleConj] at h
  | succ n =>
      cases goal <;> simp [ruleConj, Option.map_eq_some'] at h
      obtain ⟨a, -, ha⟩ := h
      subst ha
      exact ⟨rfl, rfl⟩

/-- Disjunction introduction only ever returns the goal, proven. -/
theorem ruleDisj_sound (cl : Bool) (fuel : Nat) (kb : List Pp)
    (vis noRec : List PropF) (goal : PropF) (p : Pp)
    (h : ruleDisj cl fuel kb vis noRec goal = some p) :
    p.form = goal ∧ p.proven = true := by
  cases fuel with
  | zero => cases goal <;> simp [ruleDisj] at h
  | succ n =>
      cases goal <;> simp [ruleDisj, Option.map_eq_some'] at h
      obtain ⟨a, -, ha⟩ := h
      subst ha
      exact ⟨rfl, rfl⟩

/-- The modus-ponens rule only ever returns the goal, proven. -/
theorem tryMP_sound (cl : Bool) :
    ∀ (fuel : Nat) (kb : List Pp) (vis noRec : List PropF) (prems : List Pp)
      (goal : PropF) (p : Pp), tryMP cl fuel kb vis noRec prems goal = some p →
      p.form = goal ∧ p.proven = true := by
  intro fuel
  induction fuel with
  | zero => intro kb vis noRec prems goal p h; simp [tryMP] at h
  | succ n ih =>
      intro kb vis noRec prems goal p h
      match prems with
      | [] => simp [tryMP] at h
      | q :: rest =>
          rw [tryMP, opOr_eq_some] at h
          rcases h with h | ⟨-, h⟩
          · split at h
            · split at h
              · split at h
                · rw [Option.map_eq_some'] at h
                  obtain ⟨a, -, ha⟩ := h
                  subst ha
                  exact ⟨rfl, rfl⟩
                · simp at h
              · simp at h
            · simp at h
          · exact ih kb vis noRec rest goal p h

/-- The case-analysis rule only ever returns the goal, proven. -/
theorem tryCases_sound (cl : Bool) :
    ∀ (fuel : Nat) (kb : List Pp) (vis noRec : List PropF) (prems : List Pp)
      (goal : PropF) (p : Pp), tryCases cl fuel kb vis noRec prems goal = some p →
      p.form = goal ∧ p.proven = true := by
  intro fuel
  induction fuel with
  | zero => intro kb vis noRec prems goal p h; simp [tryCases] at h
  | succ n ih =>
      intro kb vis noRec prems goal p h
      match prems with
      | [] => simp [tryCases] at h
      | q :: rest =>
          rw [tryCases, opOr_eq_some] at h
          rcases h with h | ⟨-, h⟩
          · split at h
            · split at h
              · rw [Option.map_eq_some'] at h
                obtain ⟨a, -, ha⟩ := h
                subst ha
                exact ⟨rfl, rfl⟩
              · simp at h
            · simp at h
          · exact ih kb vis noRec rest goal p h

/-- Implication introduction only ever returns the goal, proven. -/
theorem ruleImplIntro_sound (cl : Bool) (fuel : Nat) (kb : List Pp)
    (vis noRec : List PropF) (goal : PropF) (p : Pp)
    (h : ruleImplIntro cl fuel kb vis noRec goal = some p) :
    p.form = goal ∧ p.proven = true := by
  cases fuel with
  | zero => cases goal <;> simp [ruleImplIntro] at h
  | succ n =>
      cases goal <;> simp [ruleImplIntro, Option.map_eq_some'] at h
      obtain ⟨a, -, ha⟩ := h
      subst ha
      exact ⟨rfl, rfl⟩

/-- Double-negation introduction only ever returns the goal, proven. -/
theorem ruleDNIntro_sound (cl : Bool) (fuel : Nat) (kb : List Pp)
    (vis noRec : List PropF) (goal : PropF) (p : Pp)
    (h : ruleDNIntro cl fuel kb vis noRec goal = some p) :
    p.form = goal ∧ p.proven = true := by
  match goal with
  | .not_ (.not_ x) =>
      cases fuel with
      | zero => simp [ruleDNIntro] at h
      | succ n =>
          simp only [ruleDNIntro, Option.map_eq_some'] at h
          obtain ⟨a, -, ha⟩ := h
          subst ha
          exact ⟨rfl, rfl⟩
  | .atom s => simp [ruleDNIntro] at h
  | .bot => simp [ruleDNIntro] at h
  | .not_ (.atom s) => simp [ruleDNIntro] at h
  | .not_ .bot => simp [ruleDNIntro] at h
  | .not_ (.and_ ps) => simp [ruleDNIntro] at h
  | .not_ (.or_ ps) => simp [ruleDNIntro] at h
  | .not_ (.exOr ps) => simp [ruleDNIntro] at h
  | .not_ (.implies a c) => simp [ruleDNIntro] at h
  | .not_ (.forall_ v b) => simp [ruleDNIntro] at h
  | .and_ ps => simp [ruleDNIntro] at h
  | .or_ ps => simp [ruleDNIntro] at h
  | .exOr ps => simp [ruleDNIntro] at h
  | .implies a c => simp [ruleDNIntro] at h
  | .forall_ v b => simp [ruleDNIntro] at h

/-- Premise double-negation elimination only ever returns the goal, proven. -/
theorem ruleDNEPremise_sound (cl : Bool) (kb : List Pp) (goal : PropF) (p : Pp)
    (h : ruleDNEPremise cl kb goal = some p) :
    p.form = goal ∧ p.proven = true := by
  rw [ruleDNEPremise] at h
  split at h
  · rw [Option.map_eq_some'] at h
    obtain ⟨a, -, ha⟩ := h
    subst ha
    exact ⟨rfl, rfl⟩
  · simp at h

/-- Classical proof by contradiction only ever returns the goal, proven. -/
theorem ruleContraClassical_sound (cl : Bool) (fuel : Nat) (kb : List Pp)
    (vis noRec : List PropF) (goal : PropF) (p : Pp)
    (h : ruleContraClassical cl fuel kb vis noRec goal = some p) :
    p.form = goal ∧ p.proven = true := by
  rw [ruleContraClassical.eq_def] at h
  split at h
  · split at h
    · simp at h
    · rw [Option.map_eq_some'] at h
      obtain ⟨a, -, ha⟩ := h
      subst ha
      exact ⟨rfl, rfl⟩
  · simp at h

/-- De Morgan normalization only ever returns the goal, proven. -/
theorem ruleDeMorgan_sound (cl : Bool) (fuel : Nat) (kb : List Pp)
    (vis noRec : List PropF) (goal : PropF) (p : Pp)
    (h : ruleDeMorgan cl fuel kb vis noRec goal = some p) :
    p.form = goal ∧ p.proven = true := by
  match goal with
  | .not_ (.and_ ps) =>
      cases fuel with
      | zero => simp [ruleDeMorgan] at h
      | succ n =>
          simp only [ruleDeMorgan, Option.map_eq_some'] at h
          obtain ⟨a, -, ha⟩ := h
          subst ha
          exact ⟨rfl, rfl⟩
  | .not_ (.or_ ps) =>
      cases fuel with
      | zero => simp [ruleDeMorgan] at h
      | succ n =>
          simp only [ruleDeMorgan, Option.map_eq_some'] at h
          obtain ⟨a, -, ha⟩ := h
          subst ha
          exact ⟨rfl, rfl⟩
  | .atom s => simp [ruleDeMorgan] at h
  | .bot => simp [ruleDeMorgan] at h
  | .not_ (.atom s) => simp [ruleDeMorgan] at h
  | .not_ .bot => simp [ruleDeMorgan] at h
  | .not_ (.not_ x) => simp [ruleDeMorgan] at h
  | .not_ (.exOr ps) => simp [ruleDeMorgan] at h
  | .not_ (.implies a c) => simp [ruleDeMorgan] at h
  | .not_ (.forall_ v b) => simp [ruleDeMorgan] at h
  | .and_ ps => simp [ruleDeMorgan] at h
  | .or_ ps => simp [ruleDeMorgan] at h
  | .exOr ps => simp [ruleDeMorgan] at h
  | .implies a c => simp [ruleDeMorgan] at h
  | .forall_ v b => simp [ruleDeMorgan] at h

/-- A successful pass over the rule table returns the goal, proven. -/
theorem proveStep_sound (cl : Bool) (fuel : Nat) (kb : List Pp)
    (vis noRec : List PropF) (goal : PropF) (p : Pp)
    (h : proveStep cl fuel kb vis noRec goal = some p) :
    p.form = goal ∧ p.proven = true := by
  match fuel with
  | 0 => simp [proveStep] at h
  | fuel' + 1 =>
      rw [proveStep] at h
      simp only [opOr_eq_some] at h
      rcases h with h | ⟨-, h | ⟨-, h | ⟨-, h | ⟨-, h | ⟨-, h |
        ⟨-, h | ⟨-, h | ⟨-, h | ⟨-, h | ⟨-, h⟩⟩⟩⟩⟩⟩⟩⟩⟩⟩
      · exact ruleIdentity_sound kb goal p h
      · exact ruleExFalso_sound cl fuel' kb vis noRec goal p h
      · exact ruleConj_sound cl fuel' kb vis noRec goal p h
      · exact ruleDisj_sound cl fuel' kb vis noRec goal p h
      · exact tryMP_sound cl fuel' kb vis noRec kb goal p h
      · exact tryCases_sound cl fuel' kb vis noRec kb goal p h
      · exact ruleImplIntro_sound cl fuel' kb vis noRec goal p h
      · exact ruleDNIntro_sound cl fuel' kb vis noRec goal p h
      · exact ruleDNEPremise_sound cl kb goal p h
      · exact ruleContraClassical_sound cl fuel' kb vis noRec goal p h
      · exact ruleDeMorgan_sound cl fuel' kb vis noRec goal p h

/-- Soundness of the prover: a successful result is the goal, proven. -/
theorem prove_sound (cl : Bool) (fuel : Nat) (kb : List Pp)
    (vis noRec : List PropF) (goal : PropF) (p : Pp)
    (h : prove cl fuel kb vis noRec goal = .ok p) :
    p.form = goal ∧ p.proven = true := by
  match fuel with
  | 0 => simp [prove] at h
  | fuel' + 1 =>
      rw [prove] at h
      split at h
      · simp at h
      · cases hs : proveStep cl fuel' kb (goal :: vis) noRec goal with
        | none => rw [hs] at h; simp at h
        | some q =>
            rw [hs] at h
            simp only [Except.ok.injEq] at h
            exact h ▸ proveStep_sound cl fuel' kb (goal :: vis) noRec goal q hs

/-- A failing prover call reports the goal it was asked to prove. -/
theorem prove_err (cl : Bool) (fuel : Nat) (kb : List Pp)
    (vis noRec : List PropF) (goal : PropF) (e : PSearchError)
    (h : prove cl fuel kb vis noRec goal = .error e) :
    e = .noRuleApplies goal := by
  match fuel with
  | 0 =>
      rw [prove] at h
      simp only [Except.error.injEq] at h
      exact h.symm
  | fuel' + 1 =>
      rw [prove] at h
      split at h
      · simp only [Except.error.injEq] at h
        exact h.symm
      · cases hs : proveStep cl fuel' kb (goal :: vis) noRec goal with
        | none =>
            rw [hs] at h
            simp only [Except.error.injEq] at h
            exact h.symm
        | some q => rw [hs] at h; simp at h

theorem memB_iff (l : List PropF) (x : PropF) : memB l x = true ↔ x ∈ l := by
  simp only [memB, List.any_eq_true]
  constructor
  · rintro ⟨q, hq, hbeq⟩
    rw [pbeq_iff_eq] at hbeq
    exact hbeq ▸ hq
  · intro hx
    exact ⟨x, hx, (pbeq_iff_eq x x).mpr rfl⟩

theorem memB_eq_false_iff (l : List PropF) (x : PropF) :
    memB l x = false ↔ ¬ x ∈ l := by
  rw [← memB_iff l x]
  cases memB l x <;> simp

/-- No proposition equals an implication having itself as antecedent. -/
theorem ne_implies_self (a c : PropF) : a ≠ .implies a c := by
  intro h
  have hs := congrArg psize h
  rw [psize] at hs
  omega

theorem outerBinders_foldr (vs : List String) (b : PropF) :
    outerBinders (vs.foldr (fun v acc => .forall_ v acc) b) = vs ++ outerBinders b := by
  induction vs with
  | nil => simp
  | cons v vs ih => simp [outerBinders, ih]

/-- With no declared variables and a single assumption `A`, discharging a
conclusion `c` produces exactly `A → c`. -/
theorem discharge_single (f : Frame) (A c : PropF)
    (ha : f.assumptions = [A]) (hv : f.vars = []) :
    discharge f c = .implies A c := by
  simp [discharge, ha, hv]

/-- A count of exactly one `true` is the same as a decomposition with a single
`true` surrounded by `false`s. -/
theorem count_one_iff (bs : List Bool) :
    bs.count true = 1 ↔
      ∃ l r, bs = l ++ true :: r ∧ (∀ x ∈ l, x = false) ∧ (∀ x ∈ r, x = false) := by
  induction bs with
  | nil => simp
  | cons b bs ih =>
      cases b with
      | false =>
          have hc : (false :: bs).count true = bs.count true := by simp
          rw [hc, ih]
          constructor
          · rintro ⟨l, r, hbs, hl, hr⟩
            exact ⟨false :: l, r, by simp [hbs], by simpa using hl, hr⟩
          · rintro ⟨l, r, hbs, hl, hr⟩
            cases l with
            | nil => simp at hbs
            | cons x l' =>
                simp only [List.cons_append, List.cons.injEq] at hbs
                exact ⟨l', r, hbs.2, fun y hy => hl y (List.mem_cons_of_mem x hy), hr⟩
      | true =>
          have hc : (true :: bs).count true = bs.count true + 1 := by simp
          rw [hc]
          constructor
          · intro hcount
            have hz : bs.count true = 0 := by omega
            rw [List.count_eq_zero] at hz
            refine ⟨[], bs, by simp, by simp, ?_⟩
            intro x hx
            cases x with
            | true => exact absurd hx hz
            | false => rfl
          · rintro ⟨l, r, hbs, hl, hr⟩
            cases l with
            | nil =>
                simp only [List.nil_append, List.cons.injEq] at hbs
                have hz : bs.count true = 0 := by
                  rw [List.count_eq_zero]
                  intro hmem
                  rw [hbs.2] at hmem
                  exact absurd (hr true hmem) (by simp)
                omega
            | cons x l' =>
                simp only [List.cons_append, List.cons.injEq] at hbs
                have := hl x (List.mem_cons_self x l')
                rw [this] at hbs
                simp at hbs

theorem isProven_iff (frames : List Frame) (glob : List PropF) (x : PropF) :
    isProven ⟨frames, glob⟩ x = true ↔
      x ∈ glob ∨ ∃ fr ∈ frames, x ∈ fr.provenHere := by
  simp [isProven, memB_iff, List.any_eq_true]

/-- C2: Assumption discharge.  Closing a frame that assumed `A` (with no
declared variables) and whose `conclude` recorded a proven `P` makes the
implication `A -> P` proven in the enclosing state, while `P` itself and the
assumption `A` are no longer proven, provided they have no support outside
the closed frame and `P` is not itself one of the newly discharged
implications. -/
theorem c2_assumption_discharge (s : CtxState) (f : Frame) (rest : List Frame)
    (A P : PropF)
    (hf : s.frames = f :: rest)
    (ha : f.assumptions = [A])
    (hv : f.vars = [])
    (hP : P ∈ f.concls)
    (hPind : isProven ⟨rest, s.globalProven⟩ P = false)
    (hAind : isProven ⟨rest, s.globalProven⟩ A = false)
    (hPshape : ∀ c ∈ f.concls, P ≠ .implies A c) :
    (close s).map
      (fun t => (isProven t (.implies A P), isProven t P, isProven t A))
      = some (true, false, false) := by
  obtain ⟨frames, glob⟩ := s
  simp only at hf
  subst hf
  rw [← Bool.not_eq_true, isProven_iff] at hPind hAind
  have hmem : (.implies A P) ∈ f.concls.map (discharge f) := by
    rw [List.mem_map]
    exact ⟨P, hP, discharge_single f A P ha hv⟩
  have hnotres : ∀ x : PropF, (∀ c ∈ f.concls, x ≠ .implies A c) →
      ¬ x ∈ f.concls.map (discharge f) := by
    intro x hx hmemx
    rw [List.mem_map] at hmemx
    obtain ⟨c, hc, hdis⟩ := hmemx
    rw [discharge_single f A c ha hv] at hdis
    exact hx c hc hdis.symm
  cases rest with
  | nil =>
      simp only [close, Option.map_some', Option.some.injEq, Prod.mk.injEq]
      refine ⟨?_, ?_, ?_⟩
      · rw [isProven_iff]
        exact Or.inl (List.mem_append_right _ hmem)
      · rw [← Bool.not_eq_true, isProven_iff]
        intro hcon
        rcases hcon with hcon | hcon
        · rcases List.mem_append.mp hcon with hcon | hcon
          · exact hPind (Or.inl hcon)
          · exact hnotres P hPshape hcon
        · simp at hcon
      · rw [← Bool.not_eq_true, isProven_iff]
        intro hcon
        rcases hcon with hcon | hcon
        · rcases List.mem_append.mp hcon with hcon | hcon
          · exact hAind (Or.inl hcon)
          · exact hnotres A (fun c _ => ne_implies_self A c) hcon
        · simp at hcon
  | cons g rest' =>
      simp only [close, Option.map_some', Option.some.injEq, Prod.mk.injEq]
      refine ⟨?_, ?_, ?_⟩
      · rw [isProven_iff]
        refine Or.inr ⟨_, List.mem_cons_self _ _, ?_⟩
        exact List.mem_append_right _ hmem
      · rw [← Bool.not_eq_true, isProven_iff]
        intro hcon
        rcases hcon with hcon | ⟨fr, hfr, hmemfr⟩
        · exact hPind (Or.inl hcon)
        · rcases List.mem_cons.mp hfr with hfr | hfr
          · subst hfr
            simp only at hmemfr
            rcases List.mem_append.mp hmemfr with hcon | hcon
            · exact hPind (Or.inr ⟨g, List.mem_cons_self g rest', hcon⟩)
            · exact hnotres P hPshape hcon
          · exact hPind (Or.inr ⟨fr, List.mem_cons_of_mem g hfr, hmemfr⟩)
      · rw [← Bool.not_eq_true, isProven_iff]
        intro hcon
        rcases hcon with hcon | ⟨fr, hfr, hmemfr⟩
        · exact hAind (Or.inl hcon)
        · rcases List.mem_cons.mp hfr with hfr | hfr
          · subst hfr
            simp only at hmemfr
            rcases List.mem_append.mp hmemfr with hcon | hcon
            · exact hAind (Or.inr ⟨g, List.mem_cons_self g rest', hcon⟩)
            · exact hnotres A (fun c _ => ne_implies_self A c) hcon
          · exact hAind (Or.inr ⟨fr, List.mem_cons_of_mem g hfr, hmemfr⟩)

/-- C3 (core argument): closing a frame makes the discharged form of every
recorded conclusion proven in the enclosing state. -/
theorem close_result_proven (s : CtxState) (f : Frame) (rest : List Frame)
    (P : PropF)
    (hf : s.frames = f :: rest)
    (hP : P ∈ f.concls) :
    ∃ t, close s = some t ∧ isProven t (discharge f P) = true := by
  obtain ⟨frames, glob⟩ := s
  simp only at hf
  subst hf
  have hmem : discharge f P ∈ f.concls.map (discharge f) :=
    List.mem_map_of_mem (discharge f) hP
  cases rest with
  | nil =>
      refine ⟨_, rfl, ?_⟩
      rw [isProven_iff]
      exact Or.inl (List.mem_append_right _ hmem)
  | cons g rest' =>
      refine ⟨_, rfl, ?_⟩
      rw [isProven_iff]
      refine Or.inr ⟨_, List.mem_cons_self _ _, ?_⟩
      exact List.mem_append_right _ hmem

/-- C2 witness: the concrete state `sC2` (frame with assumption `A`, minted
and concluded `P`) discharges to `A -> P` proven, with `P` and `A` no longer
proven. -/
theorem c2_assumption_discharge_witness :
    (close sC2).map
      (fun t => (isProven t (.implies (.atom "A") (.atom "P")),
                 isProven t (.atom "P"), isProven t (.atom "A")))
      = some (true, false, false) :=
  c2_assumption_discharge sC2 fC2 [] (.atom "A") (.atom "P") rfl rfl rfl
    (by simp [fC2]) rfl rfl
    (by intro c hc; simp [fC2] at hc; subst hc; simp)

/-- C3: Universal generalization.  Closing a frame that declared one or more
local variables wraps every recorded conclusion so that the declared
variables appear as the outermost `Forall` binders, in declaration order
(outermost first), of the proven result in the enclosing state. -/
theorem c3_universal_generalization (s : CtxState) (f : Frame)
    (rest : List Frame) (P : PropF)
    (hf : s.frames = f :: rest)
    (hv : f.vars ≠ [])
    (hP : P ∈ f.concls) :
    ∃ t, close s = some t ∧ isProven t (discharge f P) = true ∧
      (outerBinders (discharge f P)).take f.vars.length = f.vars := by
  obtain ⟨t, hclose, hproven⟩ := close_result_proven s f rest P hf hP
  refine ⟨t, hclose, hproven, ?_⟩
  rw [discharge, outerBinders_foldr]
  exact List.take_left _ _

/-- C3 witness: the concrete state `sC3` (frame that declared `x` and
concluded `P`) closes to a result whose outermost binder list is `["x"]`. -/
theorem c3_universal_generalization_witness :
    ∃ t, close sC3 = some t ∧ isProven t (discharge fC3 (.atom "P")) = true ∧
      (outerBinders (discharge fC3 (.atom "P"))).take fC3.vars.length = fC3.vars :=
  c3_universal_generalization sC3 fC3 [] (.atom "P") rfl (by simp [fC3])
    (by simp [fC3])

/-- C1: Prover soundness.  For every premise list and goal, if
`proof_search` returns a proposition `p`, then `p` is structurally equal to
the goal and its `proven` flag is true. -/
theorem c1_prover_soundness (cl : Bool) (kb : List Pp) (goal : PropF) (p : Pp)
    (h : proof_search cl kb goal = .ok p) : p.form = goal ∧ p.proven = true :=
  prove_sound cl (defaultFuel kb goal) (expandKb kb) [] [] goal p h

/-- C1 witness: on the premise `P` and goal `~~P` the search succeeds, and
the returned proposition is the goal with `proven` true. -/
theorem c1_prover_soundness_witness :
    c1res.form = PropF.not_ (.not_ Pa) ∧ c1res.proven = true :=
  c1_prover_soundness true [mkAssump Pa] (.not_ (.not_ Pa)) c1res rfl

/-- C5: Prover failure mode.  Whenever the prover entry point fails, the
error is `NoRuleApplies` carrying exactly the goal it was asked to prove. -/
theorem c5_prover_failure_mode (cl : Bool) (kb : List Pp) (goal : PropF)
    (e : PSearchError) (h : proof_search cl kb goal = .error e) :
    e = .noRuleApplies goal :=
  prove_err cl (defaultFuel kb goal) (expandKb kb) [] [] goal e h

/-- C5 witness: the non-classical search for `P` from `~~P` fails, and the
error names the goal `P`. -/
theorem c5_prover_failure_mode_witness :
    errOf (proof_search false [mkAssump (.not_ (.not_ Pa))] Pa)
      = .noRuleApplies Pa :=
  c5_prover_failure_mode false [mkAssump (.not_ (.not_ Pa))] Pa
    (errOf (proof_search false [mkAssump (.not_ (.not_ Pa))] Pa)) rfl

/-- C4: Classical-logic toggle.  With the premise `~~P` proven and goal `P`,
`proof_search` succeeds (returning `P` proven) in classical mode and fails
with `NoRuleApplies` otherwise, exactly as recorded in the test notebook. -/
theorem c4_classical_toggle :
    proof_search true [mkAssump (.not_ (.not_ Pa))] Pa = .ok (Pp.mk Pa true none)
      ∧ proof_search false [mkAssump (.not_ (.not_ Pa))] Pa
          = .error (.noRuleApplies Pa) :=
  ⟨rfl, rfl⟩

/-- C6: Modus ponens.  For propositions `A` (proven) and a proven implication
`A -> B`, `A.modus_ponens(A -> B)` returns `B` with `proven` true and a
`modus_ponens` provenance record. -/
theorem c6_modus_ponens (a : Pp) (b : PropF) (impl : Pp)
    (h1 : a.proven = true) (h2 : impl.proven = true)
    (h3 : impl.form = .implies a.form b) :
    modus_ponens a impl = .ok (Pp.mk b true (some ("modus_ponens", [a, impl]))) := by
  have hb : beq a.form a.form = true := (pbeq_iff_eq _ _).mpr rfl
  simp [modus_ponens, h1, h2, h3, hb]

/-- C6 witness: from the proven premises `P`, `P -> (Q v R)` and
`(Q v R) -> ~S`, two applications of modus ponens yield `Q v R` and then
`~S`, both proven. -/
theorem c6_modus_ponens_witness :
    modus_ponens ppP ppPQR = .ok ppQR ∧ modus_ponens ppQR ppQRS = .ok ppNS :=
  ⟨c6_modus_ponens ppP (.or_ [Qa, Ra]) ppPQR rfl rfl rfl,
   c6_modus_ponens ppQR (.not_ Sa) ppQRS rfl rfl rfl⟩

/-- C7 counterexample: on scenario 4 the search succeeds, but the provenance
of the returned proof is not a `by_cases` application whose case branches
each have `ex_falso` at their root — the root rule of the returned proof is
`ex_falso` itself (matching the output `('ex_falso',
Proposition(contradiction))` recorded in src/test_proof_search.ipynb), and
the case analysis occurs deeper in the derivation. -/
theorem c7_counterexample :
    (proof_search true kb7 goal7).toOption.map byCasesWithExFalsoBranches
      = some false := rfl

/-- C7 amended: from the proven premises `(P -> Q) ^ (R -> S)`,
`(Q v S) -> T`, `P v R` and `~T`, the search proves the goal `~P ^ ~R`, and
the provenance root of the returned proof is `ex_falso` applied to the
proven contradiction. -/
theorem c7_scenario4_amended :
    (proof_search true kb7 goal7).toOption.map
      (fun p => (p.form, p.proven, rootRule p, rootInputForms p))
      = some (goal7, true, some "ex_falso", [.bot]) := rfl

/-- C8 counterexample: with the single premise `~(P ^ (Q v R v S))` proven
and goal `~P v (~Q ^ ~R ^ ~S)`, the search fails with `NoRuleApplies` even
in classical mode (the recorded test shows the prover failing the analogous
`~(P ^ Q) |- ~P v ~Q` under classical mode), contradicting the claim that
classical mode succeeds. -/
theorem c8_counterexample :
    proof_search true [mkAssump prem8] goal8 = .error (.noRuleApplies goal8) :=
  rfl

/-- C8 amended: with the single premise `~(P ^ (Q v R v S))` proven, the
search for `~P v (~Q ^ ~R ^ ~S)` fails with `NoRuleApplies` in classical and
in non-classical mode alike. -/
theorem c8_demorgan_amended :
    proof_search true [mkAssump prem8] goal8 = .error (.noRuleApplies goal8)
      ∧ proof_search false [mkAssump prem8] goal8
          = .error (.noRuleApplies goal8) :=
  ⟨rfl, rfl⟩

/-- C9: ExOr semantics.  For every list of more than two propositions with
defined truth values, the `ExOr` connective is true iff exactly one of its
disjuncts is true and all others are false; and this is not the "odd number
of true disjuncts" (parity) semantics. -/
theorem c9_exor_semantics (ps : List PropF) (v : String → Bool)
    (bs : List Bool) (hlen : 2 < ps.length) (hev : evalPList v ps = some bs) :
    ((evalP v (.exOr ps) = some true) ↔
      ∃ l r, bs = l ++ true :: r ∧ (∀ x ∈ l, x = false) ∧ (∀ x ∈ r, x = false))
    ∧ ¬ (∀ (qs : List PropF) (w : String → Bool) (cs : List Bool),
          evalPList w qs = some cs →
          ((evalP w (.exOr qs) = some true) ↔ cs.count true % 2 = 1)) := by
  constructor
  · rw [evalP, hev]
    simp only [Option.map_some', Option.some.injEq, beq_iff_eq]
    exact count_one_iff bs
  · intro hcontra
    have h3 := hcontra [Pa, Qa, Ra] (fun _ => true) [true, true, true] rfl
    have heval : evalP (fun _ => true) (.exOr [Pa, Qa, Ra]) = some false := rfl
    rw [heval] at h3
    simp at h3

/-- C9 witness: the exactly-one characterization instantiated at three
disjuncts that are all true: the `ExOr` is then false — although the number
of true disjuncts is odd. -/
theorem c9_exor_semantics_witness :
    ((evalP (fun _ => true) (.exOr [Pa, Qa, Ra]) = some true) ↔
      ∃ l r, [true, true, true] = l ++ true :: r
        ∧ (∀ x ∈ l, x = false) ∧ (∀ x ∈ r, x = false))
    ∧ ¬ (∀ (qs : List PropF) (w : String → Bool) (cs : List Bool),
          evalPList w qs = some cs →
          ((evalP w (.exOr qs) = some true) ↔ cs.count true % 2 = 1)) :=
  c9_exor_semantics [Pa, Qa, Ra] (fun _ => true) [true, true, true]
    (by simp) rfl

/-- C10: a successful prover result need not carry a rule provenance: with
the premise `P` assumed and goal `~~P`, the search returns the goal proven
with `deduced_from = None`, matching the recorded test output. -/
theorem c10_no_provenance :
    proof_search true [mkAssump Pa] (.not_ (.not_ Pa))
      = .ok (Pp.mk (.not_ (.not_ Pa)) true none) := rfl
